import Mathlib

/-!
Verification development for the markdown-attributes processor
(annotation tokenizer, attribute application, tree walker) and its
live-editor decoration engine (builder, cache, selection-aware state field).

The definitions below are shallow embeddings of the TypeScript source:
  * `getAttrs`, `tryToReplace`, `parseLine`, `recurseAndParseElements`
    from the `Processor` class,
  * `rangesInclude`, the stateful decoration field update, and the
    decoration cache `compute` from `main.ts`.
Host-environment behaviour (DOM attribute validation, `innerHTML`
serialization and parsing for markup produced by this model, JS string
primitives) is modelled explicitly where the source relies on it.
-/

/-! ## JS string primitives used by the source -/

/-- Model of the JS `\s` character class (ASCII part; the source only ever
splits annotation text, which contains no exotic Unicode whitespace). -/
def jsSpace (c : Char) : Bool :=
  c = ' ' || c = '\t' || c = '\n' || c = '\r' || c = '\x0b' || c = '\x0c'

/-- The three quote characters recognized by the splitting regex
`/\s(?=(?:[^'"`]*(['"`])[^'"`]*\1)*[^'"`]*$)/` in `getAttrs`. -/
def isQuoteChar (c : Char) : Bool :=
  c = '"' || c = '\x27' || c = '\x60'

/-- Whether a list of quote characters consists of consecutive equal pairs:
this is exactly when the lookahead
`(?:[^'"`]*(['"`])[^'"`]*\1)*[^'"`]*$` accepts a string whose quote
characters are the given list (the `[^'"`]*` pieces absorb everything else,
and each group iteration is forced to consume exactly two equal quotes). -/
def pairsOk : List Char → Bool
  | [] => true
  | [_] => false
  | a :: b :: rest => a = b && pairsOk rest

/-- The split lookahead holds at a position iff the remaining suffix has its
quote characters arranged in consecutive equal pairs. -/
def quoteBalanced (s : List Char) : Bool :=
  pairsOk (s.filter isQuoteChar)

/-- Value of the capturing group `(['"`])` inside the lookahead: the group is
set on each iteration, so its final value is the last quote character of the
suffix; it is `none` when the group did not participate (no quote pairs).
JS `String.split` inserts this capture into the result array. -/
def lastCapture (s : List Char) : Option (List Char) :=
  match (s.filter isQuoteChar).getLast? with
  | none => none
  | some q => some [q]

/-- Model of
`str.split(/\s(?=(?:[^'"`]*(['"`])[^'"`]*\1)*[^'"`]*$)/)`:
split at each whitespace character whose suffix is quote-balanced, inserting
the capture group value (or `none` for JS `undefined`) after each fragment. -/
def splitGo (acc : List Char) : List Char → List (Option (List Char))
  | [] => [some acc.reverse]
  | c :: rest =>
    if jsSpace c && quoteBalanced rest then
      some acc.reverse :: lastCapture rest :: splitGo [] rest
    else
      splitGo (c :: acc) rest

/-- JS `String.prototype.trim` on a character list. -/
def jsTrim (l : List Char) : List Char :=
  ((l.dropWhile jsSpace).reverse.dropWhile jsSpace).reverse

/-- The `trys` pipeline of `Processor.getAttrs`: quote-aware split, then
`.map((t) => t && t.trim())`, then
`.filter((t) => t && t !== '"' && t !== "'" && t.length)`.
Note the filter removes only the two straight quotes, not the backtick. -/
def attrFragments (str : String) : List (List Char) :=
  (splitGo [] str.toList).filterMap fun t? =>
    match t? with
    | none => none
    | some t =>
      let t' := jsTrim t
      if t' = [] || t' = ['"'] || t' = ['\x27'] then none else some t'

/-- The source's `allowedKeyChars = /[^\t\n\f />"'=]/` applied with `.test`:
true iff the candidate key contains at least one character outside the
forbidden set. -/
def allowedKeyTest (l : List Char) : Bool :=
  l.any fun c =>
    !(c = '\t' || c = '\n' || c = '\x0c' || c = ' ' || c = '/' || c = '>' ||
      c = '"' || c = '\x27' || c = '=')

/-- Classification of one fragment in the `getAttrs` loop:
`.`-prefixed fragments become `class` pairs, fragments containing `=` with an
allowed key prefix become key/value pairs via `pair.split("=", 2)` (whose
second field is the text between the first and second `=`), and everything
else becomes a bare flag `[pair, null]`. -/
def classifyPair : List Char → String × Option String
  | [] => ("", none)
  | c :: rest =>
    if c = '.' then
      ("class", some (String.mk rest))
    else
      let p := c :: rest
      if p.contains '=' && allowedKeyTest (p.takeWhile (· ≠ '=')) then
        (String.mk (p.takeWhile (· ≠ '=')),
         some (String.mk (((p.dropWhile (· ≠ '=')).drop 1).takeWhile (· ≠ '='))))
      else
        (String.mk p, none)

/-- `Processor.getAttrs`: returns `none` (JS `undefined`) when no fragments
survive the filter, otherwise the classified `[key, value]` pairs.  The loop
skips empty fragments (`if (!pair || !pair.length) continue`). -/
def getAttrs (str : String) : Option (List (String × Option String)) :=
  let frags := attrFragments str
  if frags.isEmpty then none
  else some (frags.filterMap fun p => if p.isEmpty then none else some (classifyPair p))

/-! ## Host DOM model and `tryToReplace` -/

/-- An applied attribute value: `Obsidian`'s `setAttr(key, true)` (chosen when
the pair's value is null or empty) versus a string value. -/
inductive AttrVal where
  | boolTrue
  | str (s : String)
deriving DecidableEq, Repr

/-- A DOM node: a text node or an element with an identity (standing for the
JS object reference), a lowercase tag name, a class list, attributes, and
child nodes. -/
inductive Node where
  | text (data : String)
  | elem (eid : Nat) (tag : String) (classes : List String)
      (attrs : List (String × AttrVal)) (children : List Node)

/-- Element view of `Node.elem`, used to mirror variables of type
`HTMLElement` in the source. -/
structure Elem where
  eid : Nat
  tag : String
  classes : List String
  attrs : List (String × AttrVal)
  children : List Node

def Elem.toNode (e : Elem) : Node :=
  .elem e.eid e.tag e.classes e.attrs e.children

def Node.toElem? : Node → Option Elem
  | .text _ => none
  | .elem i t c a ch => some ⟨i, t, c, a, ch⟩

/-- `el.hasClass(c)`. -/
def hasClassE (e : Elem) (c : String) : Bool := e.classes.contains c

/-- Model of the host's attribute-name validation: `setAttribute` throws
`InvalidCharacterError` on names outside the XML name grammar.  We model the
accepted set as nonempty strings of letters, digits, `-`, `_`, `:`, `.`. -/
def validAttrName (s : String) : Bool :=
  s ≠ "" && s.toList.all fun c =>
    c.isAlpha || c.isDigit || c = '-' || c = '_' || c = ':' || c = '.'

/-- Last-write-wins attribute update on the element's attribute list. -/
def updateAttr (l : List (String × AttrVal)) (k : String) (v : AttrVal) :
    List (String × AttrVal) :=
  if l.any (fun p => p.1 = k) then
    l.map fun p => if p.1 = k then (k, v) else p
  else l ++ [(k, v)]

/-- `element.setAttr(key, value)`: fails (`none`) for invalid names. -/
def setAttrEl (e : Elem) (k : String) (v : AttrVal) : Option Elem :=
  if validAttrName k then some { e with attrs := updateAttr e.attrs k v } else none

/-- `element.addClasses(list)`: the host's `classList.add` validates every
token (throwing on the empty string) before appending the missing ones. -/
def addClassesEl (e : Elem) (cs : List String) : Option Elem :=
  if cs.all (fun c => c ≠ "") then
    some { e with classes := e.classes ++ cs.filter (fun c => !e.classes.contains c) }
  else none

/-- `value.replace(/("|')/g, "")`: strip straight double and single quotes
(not backticks) from a value. -/
def stripQuotes (s : String) : String :=
  String.mk (s.toList.filter fun c => !(c = '"' || c = '\x27'))

/-- JS `value.split(" ")`: split on each single space character (adjacent
separators yield empty fragments, the empty string yields `[""]`). -/
def splitSpGo (acc : List Char) : List Char → List String
  | [] => [String.mk acc.reverse]
  | c :: rest =>
    if c = ' ' then String.mk acc.reverse :: splitSpGo [] rest
    else splitSpGo (c :: acc) rest

def jsSplitSpace (s : String) : List String :=
  splitSpGo [] s.toList

/-- One iteration of the `tryToReplace` attribute loop on the target element
(`none` target = JS `null`, on which any method call throws).  Returns
`none` when the host throws (the `catch` branch), `some el'` otherwise;
an empty key is skipped (`if (!key) continue`). -/
def applyAttr (el? : Option Elem) (k : String) (v? : Option String) :
    Option (Option Elem) :=
  if k = "" then some el?
  else
    let v' := v?.map stripQuotes
    if k = "class" then
      match el?, v' with
      | some el, some s => (addClassesEl el (jsSplitSpace s)).map some
      | _, _ => none
    else
      match el? with
      | none => none
      | some el =>
        match v' with
        | none => (setAttrEl el k .boolTrue).map some
        | some s =>
          if s = "" then (setAttrEl el k .boolTrue).map some
          else (setAttrEl el k (.str s)).map some

/-- Sequential application of a pair list (stopping at the first failure),
used to phrase theorems about prefixes of the `tryToReplace` loop. -/
def applyAttrs (el? : Option Elem) : List (String × Option String) → Option (Option Elem)
  | [] => some el?
  | (k, v) :: rest =>
    match applyAttr el? k v with
    | none => none
    | some el' => applyAttrs el' rest

/-- First-occurrence search: if `pat` occurs in `s`, remove its first
occurrence, else return `s` unchanged (JS `String.replace` with a string
pattern and empty replacement). -/
def replFirstGo : List Char → List Char → List Char
  | [], _ => []
  | c :: rest, pat =>
    if pat.isPrefixOf (c :: rest) then (c :: rest).drop pat.length
    else c :: replFirstGo rest pat

def jsReplaceFirst (s pat : String) : String :=
  String.mk (replFirstGo s.toList pat.toList)

/-- The loop + final `content.replace(original, "")` of
`Processor.tryToReplace`.  On a host failure it returns the current content
unchanged together with the element state reached so far. -/
def ttrGo (orig : String) (el? : Option Elem) (content : String) :
    List (String × Option String) → Option Elem × String
  | [] => (el?, jsReplaceFirst content orig)
  | (k, v) :: rest =>
    match applyAttr el? k v with
    | some el' => ttrGo orig el' content rest
    | none => (el?, content)

/-- `Processor.tryToReplace(element, content, attributes, original)`:
returns the mutated target element (made explicit) and the resulting
content.  `if (!attributes || !attributes.length) return content`. -/
def tryToReplace (el? : Option Elem) (content : String)
    (attrs? : Option (List (String × Option String))) (orig : String) :
    Option Elem × String :=
  match attrs? with
  | none => (el?, content)
  | some [] => (el?, content)
  | some attrs => ttrGo orig el? content attrs

/-! ## The four annotation regexes

`BASE_RE  = /\{\:?[ ]*([^\}\n ][^\}\n]*)[ ]*\}/`
`END_RE   = /\{\:?[ ]*([^\}\n ][^\}\n]*)[ ]*\}$/m`
`BLOCK_RE = /\n[ ]*\{\:?[ ]*([^\}\n ][^\}\n]*)[ ]*\}[ ]*$/`
The group is greedy and cannot contain `}` or a newline, so a match at a
given brace is forced: the group runs from the first non-space character
after the brace (and optional colon) up to the character before the first
`}`; the `[ ]*` before `\}` never consumes (the greedy group already holds
any spaces). -/

/-- Match `[ ]*([^\}\n ][^\}\n]*)[ ]*\}` at the start of the input; returns
the consumed length and the group. -/
def innerAfterBrace (t : List Char) : Option (Nat × List Char) :=
  let sp := t.takeWhile (· = ' ')
  let t1 := t.drop sp.length
  match t1 with
  | c :: t2 =>
    if c = '\x7d' || c = '\n' || c = ' ' then none
    else
      let grpTail := t2.takeWhile fun d => !(d = '\x7d' || d = '\n')
      let rest := t2.drop grpTail.length
      match rest with
      | '\x7d' :: _ => some (sp.length + 1 + grpTail.length + 1, c :: grpTail)
      | _ => none
  | [] => none

/-- Match `\{\:?[ ]*([^\}\n ][^\}\n]*)[ ]*\}` at the start of the input
(trying the greedy `\:?` with the colon consumed first, then without, as the
backtracking engine does); returns consumed length and group. -/
def matchBraced (s : List Char) : Option (Nat × List Char) :=
  match s with
  | '\x7b' :: s1 =>
    match s1 with
    | ':' :: s2 =>
      match innerAfterBrace s2 with
      | some (len, grp) => some (2 + len, grp)
      | none => (innerAfterBrace s1).map fun p => (1 + p.1, p.2)
    | _ => (innerAfterBrace s1).map fun p => (1 + p.1, p.2)
  | _ => none

/-- One candidate position for `BLOCK_RE` (must start at a newline; the match
runs `\n[ ]*`, the braced part, then `[ ]*$` to the end of the string).
Returns (full match, group). -/
def blockTryHere (s : List Char) : Option (String × String) :=
  match s with
  | '\n' :: r =>
    let sp := r.takeWhile (· = ' ')
    let r1 := r.drop sp.length
    match matchBraced r1 with
    | some (len, grp) =>
      let after := r1.drop len
      if after.all (· = ' ') then
        some (String.mk ('\n' :: (sp ++ r1.take len ++ after)), String.mk grp)
      else none
    | none => none
  | _ => none

/-- Leftmost `BLOCK_RE` match (`text.match(Processor.BLOCK_RE)`), giving
`[original, attribute_string]`. -/
def blockScanL : List Char → Option (String × String)
  | [] => none
  | c :: rest =>
    match blockTryHere (c :: rest) with
    | some res => some res
    | none => blockScanL rest

def blockMatchS (text : String) : Option (String × String) :=
  blockScanL text.toList

/-- Leftmost `BASE_RE` match (`text.match(Processor.BASE_RE)`), giving
`[original, attribute_string]`. -/
def baseScanL : List Char → Option (String × String)
  | [] => none
  | c :: rest =>
    if c = '\x7b' then
      match matchBraced (c :: rest) with
      | some (len, grp) => some (String.mk ((c :: rest).take len), String.mk grp)
      | none => baseScanL rest
    else baseScanL rest

def baseMatchS (text : String) : Option (String × String) :=
  baseScanL text.toList

/-- `Processor.END_RE.test(text)`: some braced part ends exactly at a line
end (the `m` flag makes `$` match before `\n` or at the end of input). -/
def endScanL : List Char → Bool
  | [] => false
  | c :: rest =>
    (if c = '\x7b' then
      match matchBraced (c :: rest) with
      | some (len, _) =>
        match (c :: rest).drop len with
        | [] => true
        | '\n' :: _ => true
        | _ => false
      | none => false
     else false) || endScanL rest

def endReTestS (text : String) : Bool :=
  endScanL text.toList

/-- One annotation record: the target element (by identity, absent for
string parsing), the parsed attribute pairs, and the matched inner text
(the source's `ElementWithAttributes`). -/
structure ElementWithAttributes where
  element : Option Nat
  attributes : Option (List (String × Option String))
  text : String
deriving DecidableEq, Repr

/-- `Processor.parseLine`: iterate `END_RE` with the `gm` flags over the
text, pushing `{attributes: getAttrs(group), text: group}` for each match
and resuming after each match end. -/
def parseLineGo : Nat → List Char → List ElementWithAttributes
  | 0, _ => []
  | _ + 1, [] => []
  | f + 1, c :: rest =>
    if c = '\x7b' then
      match matchBraced (c :: rest) with
      | some (len, grp) =>
        match (c :: rest).drop len with
        | [] => [⟨none, getAttrs (String.mk grp), String.mk grp⟩]
        | '\n' :: tail =>
          ⟨none, getAttrs (String.mk grp), String.mk grp⟩ :: parseLineGo f ('\n' :: tail)
        | _ => parseLineGo f rest
      | none => parseLineGo f rest
    else parseLineGo f rest

def parseLine (text : String) : List ElementWithAttributes :=
  parseLineGo (text.toList.length + 1) text.toList

/-! ## Host `innerHTML` model

The walker reads `el.innerHTML`, strips a substring from it, and writes it
back; the browser then reparses the markup.  We model serialization
(`renderNodeF`, fuel = tree depth) and reparsing (`parseNodesC`, fuel
bounded by the input length) for the markup this model produces; text data
is assumed free of `<` and `&` (no entity escaping is modelled). -/

def renderAttrVal : AttrVal → String
  | .boolTrue => "true"
  | .str s => s

def renderAttrsStr (classes : List String) (attrs : List (String × AttrVal)) : String :=
  (if classes.isEmpty then ""
   else " class=\"" ++ String.intercalate " " classes ++ "\"")
  ++ String.join (attrs.map fun p => " " ++ p.1 ++ "=\"" ++ renderAttrVal p.2 ++ "\"")

def renderNodeF : Nat → Node → String
  | 0, _ => ""
  | _ + 1, .text d => d
  | f + 1, .elem _ tag cls attrs ch =>
    "<" ++ tag ++ renderAttrsStr cls attrs ++ ">"
      ++ String.join (ch.map (renderNodeF f)) ++ "</" ++ tag ++ ">"

def renderNodesF (f : Nat) (l : List Node) : String :=
  String.join (l.map (renderNodeF f))

def isTagChar (c : Char) : Bool := c.isAlpha || c.isDigit

/-- Parse serialized attributes ` k="v" ...` until the tag-open ends. -/
def parseAttrsC : Nat → List Char → (List String × List (String × AttrVal)) × List Char
  | 0, s => (([], []), s)
  | f + 1, s =>
    match s with
    | ' ' :: r =>
      let name := r.takeWhile fun c => !(c = '=' || c = '>' || c = ' ')
      let r1 := r.drop name.length
      match r1 with
      | '=' :: '"' :: r2 =>
        let v := r2.takeWhile (· ≠ '"')
        let r3 := r2.drop (v.length + 1)
        let ((cls, ats), r4) := parseAttrsC f r3
        if String.mk name = "class" then
          (((String.mk v).splitOn " " ++ cls, ats), r4)
        else
          ((cls, (String.mk name, AttrVal.str (String.mk v)) :: ats), r4)
      | _ => (([], []), s)
    | _ => (([], []), s)

def expectClosing (tag : List Char) (s : List Char) : List Char :=
  if ('<' :: '/' :: (tag ++ ['>'])).isPrefixOf s then s.drop (tag.length + 3) else s

/-- Reparse markup into nodes (fuel `input length + 1` always suffices);
reparsed elements are fresh objects, modelled with identity 0. -/
def parseNodesC : Nat → List Char → List Node × List Char
  | 0, s => ([], s)
  | _ + 1, [] => ([], [])
  | _ + 1, '<' :: '/' :: rest => ([], '<' :: '/' :: rest)
  | f + 1, '<' :: rest =>
    let tag := rest.takeWhile isTagChar
    let r1 := rest.drop tag.length
    let ((cls, ats), r2) := parseAttrsC (r1.length + 1) r1
    (match r2 with
     | '>' :: r3 =>
       let (children, r4) := parseNodesC f r3
       let r5 := expectClosing tag r4
       let (sib, r6) := parseNodesC f r5
       (Node.elem 0 (String.mk tag) cls ats children :: sib, r6)
     | _ => ([], r2))
  | f + 1, c :: rest =>
    let txt := (c :: rest).takeWhile (· ≠ '<')
    let r1 := (c :: rest).drop txt.length
    let (sib, r2) := parseNodesC f r1
    (Node.text (String.mk txt) :: sib, r2)

def parseHTML (s : String) : List Node :=
  (parseNodesC (s.toList.length + 1) s.toList).1

/-! ## `Processor.recurseAndParseElements` -/

/-- `getTopLevelText`: concatenated data of the element's direct text-node
children only. -/
def getTopLevelText (el : Elem) : String :=
  String.join (el.children.filterMap fun n =>
    match n with
    | .text d => some d
    | _ => none)

def elemChildrenOf (l : List Node) : List Elem :=
  l.filterMap Node.toElem?

/-- Replace the `i`-th element child (`el.children` enumerates element
children only; text nodes are passed over). -/
def setElemChildAt : List Node → Nat → Node → List Node
  | [], _, _ => []
  | .text d :: rest, i, n => .text d :: setElemChildAt rest i n
  | .elem _ _ _ _ _ :: rest, 0, n => n :: rest
  | .elem a b c d e :: rest, i + 1, n => .elem a b c d e :: setElemChildAt rest i n

/-- Node index of the first text-node child (`childNodes.find` with a
`TEXT_NODE` test; the source's second conjunct re-tests the whole top-level
text, which is true whenever this branch runs). -/
def firstTextIdx : List Node → Option Nat
  | [] => none
  | .text _ :: _ => some 0
  | _ :: rest => (firstTextIdx rest).map (· + 1)

/-- Data of the node at the given node index, when it is a text node. -/
def textDataAt (l : List Node) (i : Nat) : String :=
  match l.get? i with
  | some (.text d) => d
  | _ => ""

/-- Replace the node at node index `i` by a text node with the given data. -/
def setTextAt : List Node → Nat → String → List Node
  | [], _, _ => []
  | _ :: rest, 0, s => .text s :: rest
  | n :: rest, i + 1, s => n :: setTextAt rest i s

/-- Element index (among element children) of the node at node position
`pos`, when that node is an element. -/
def elemIndexAt (l : List Node) (pos : Nat) : Option Nat :=
  match l.get? pos with
  | some (.elem _ _ _ _ _) => some ((l.take pos).countP fun n => !n.toElem?.isNone)
  | _ => none

/-- Reference to the inline-annotation target relative to the current
element: the parent, the element itself, or its `j`-th element child. -/
inductive SibRef where
  | par
  | self
  | child (j : Nat)
deriving DecidableEq, Repr

def resolveRef (parent : Option Elem) (el : Elem) : SibRef → Option Elem
  | .par => parent
  | .self => some el
  | .child j => (elemChildrenOf el.children).get? j

/-- `sibling.parentElement` steps: a child's parent is the element, the
element's parent is the walker's parent.  (The model tracks one ancestor
level; stepping above the parent would require the parent itself to be a
`<br>` or collapse-indicator, impossible in a well-formed document.) -/
def refParent : SibRef → SibRef
  | .par => .par
  | .self => .par
  | .child _ => .self

def parentQuote (p? : Option Elem) : Bool :=
  match p? with
  | some p => p.tag = "blockquote" || p.tag = "q"
  | none => false

/-- The children loop of `recurseAndParseElements` (lines 218–226): iterate
a snapshot of the element children, skipping `<pre>` and `<code>` elements,
recursing into the rest via `go` and threading the mutations (a child's
block branch can mutate this element through its parent reference). -/
def childLoop (go : Option Elem → Elem → List ElementWithAttributes × Elem × Option Elem) :
    Nat → Nat → Elem → List ElementWithAttributes × Elem
  | 0, _, el => ([], el)
  | k + 1, i, el =>
    match (elemChildrenOf el.children).get? i with
    | none => ([], el)
    | some c =>
      if c.tag = "pre" || c.tag = "code" then childLoop go k (i + 1) el
      else
        let res := go (some el) c
        let el₁ := res.2.2.getD el
        let el₂ := { el₁ with children := setElemChildAt el₁.children i res.2.1.toNode }
        let rest := childLoop go k (i + 1) el₂
        (res.1 ++ rest.1, rest.2)

/-- `Processor.recurseAndParseElements`, with the mutation of the element
and of its parent (through `el.parentElement`) made explicit; `fuel` bounds
the recursion (the source can diverge when a failed attribute application
leaves a list item's block annotation in place). -/
def recurseAndParseElements :
    Nat → Option Elem → Elem → List ElementWithAttributes × Elem × Option Elem
  | 0, parent, el => ([], el, parent)
  | Nat.succ f, parent, el =>
    let text := getTopLevelText el
    match blockMatchS text with
    | some (original, inner) =>
      -- Attributes apply to the whole block; retarget to the parent for
      -- list items, blockquote children, and callouts.
      let retarget := el.tag = "li" || parentQuote parent || hasClassE el "callout"
      let target : Option Elem := if retarget then parent else some el
      let attrs := getAttrs inner
      let rec0 : ElementWithAttributes := ⟨target.map (·.eid), attrs, inner⟩
      let applied := tryToReplace target (renderNodesF (f + 1) el.children) attrs original
      let el₁ := if retarget then el else applied.1.getD el
      let parent₁ := if retarget then applied.1 else parent
      let el₂ := { el₁ with children := parseHTML applied.2 }
      let liStep :=
        if el.tag = "li" then recurseAndParseElements f parent₁ el₂
        else ([], el₂, parent₁)
      let n := (elemChildrenOf liStep.2.1.children).length
      let rest := childLoop (recurseAndParseElements f) n 0 liStep.2.1
      (rec0 :: (liStep.1 ++ rest.1), rest.2, liStep.2.2)
    | none =>
      match baseMatchS text with
      | some (original, inner) =>
        let t? := firstTextIdx el.children
        let sib0 : SibRef :=
          match t? with
          | some (t + 1) =>
            match elemIndexAt el.children t with
            | some j => .child j
            | none => .self
          | _ => .self
        let sib1 :=
          match resolveRef parent el sib0 with
          | some s => if hasClassE s "collapse-indicator" then refParent sib0 else sib0
          | none => sib0
        let sib2 :=
          match resolveRef parent el sib1 with
          | some s => if s.tag = "br" then refParent sib1 else sib1
          | none => sib1
        let target := resolveRef parent el sib2
        let attrs := getAttrs inner
        let rec0 : ElementWithAttributes := ⟨target.map (·.eid), attrs, inner⟩
        let ti := t?.getD 0
        let applied := tryToReplace target (textDataAt el.children ti) attrs original
        let withText :=
          match sib2 with
          | .self =>
            let base := applied.1.getD el
            ({ base with children := setTextAt base.children ti applied.2 }, parent)
          | .child j =>
            let ch :=
              match applied.1 with
              | some c => setElemChildAt el.children j c.toNode
              | none => el.children
            ({ el with children := setTextAt ch ti applied.2 }, parent)
          | .par =>
            ({ el with children := setTextAt el.children ti applied.2 }, applied.1)
        let n := (elemChildrenOf withText.1.children).length
        let rest := childLoop (recurseAndParseElements f) n 0 withText.1
        (rec0 :: rest.1, rest.2, withText.2)
      | none =>
        let n := (elemChildrenOf el.children).length
        let rest := childLoop (recurseAndParseElements f) n 0 el
        (rest.1, rest.2, parent)

/-! ## Live-editor decoration engine (`main.ts`) -/

/-- A syntax-tree token as delivered to the `enter` callback: its span and
its `tokenClassNodeProp` class list (`none` for a missing prop). -/
structure SynTok where
  tFrom : Nat
  tTo : Nat
  props : Option (List String)
deriving DecidableEq, Repr

/-- A `TokenSpec` of the view plugin's `build`. -/
inductive TokenSpec where
  | mark (sFrom sTo : Int) (value : String)
      (attributes : Option (List (String × Option String)))
  | replace (sFrom sTo : Int) (locFrom locTo : Int) (value : String) (idx : Nat)
deriving DecidableEq, Repr

/-- `view.state.doc.sliceString(from, to)`. -/
def sliceStr (doc : String) (a b : Nat) : String :=
  String.mk ((doc.toList.drop a).take (b - a))

/-- Match, at the start of the input, the dynamic pattern
`new RegExp("\\{\\s?" + text + "s?\\}")` built in `build` — note the lost
backslash: the template literal's `\s?` denotes an optional literal `s`.
Modelled for annotation texts free of regex metacharacters (the pattern is
`{`, an optional whitespace, the text, an optional `s`, and `}`). -/
def braceSearchAt (text : List Char) (s : List Char) : Option Nat :=
  match s with
  | '\x7b' :: r =>
    let tryTail : List Char → Option Nat := fun r' =>
      if text.isPrefixOf r' then
        match r'.drop text.length with
        | 's' :: '\x7d' :: _ => some (text.length + 2)
        | '\x7d' :: _ => some (text.length + 1)
        | _ => none
      else none
    (match r with
     | c :: r2 =>
       if jsSpace c then
         match tryTail r2 with
         | some n => some (2 + n)
         | none => (tryTail r).map (1 + ·)
       else (tryTail r).map (1 + ·)
     | [] => (tryTail r).map (1 + ·))
  | _ => none

def braceSearchGo (text : List Char) (i : Nat) : List Char → Option (Nat × Nat)
  | [] => none
  | c :: rest =>
    match braceSearchAt text (c :: rest) with
    | some len => some (i, len)
    | none => braceSearchGo text (i + 1) rest

/-- `original.match(new RegExp(...))`: leftmost match index and matched
substring, or `none` (JS `null`). -/
def jsMatchBraceRE (original text : String) : Option (Nat × String) :=
  (braceSearchGo text.toList 0 original.toList).map fun p =>
    (p.1, String.mk ((original.toList.drop p.1).take p.2))

/-- The two specs pushed per parsed item in `build`; `none` models the
exception thrown by `match.index` when the dynamic regex fails. -/
def buildItem (t : SynTok) (original : String) (item : ElementWithAttributes) :
    Option (List TokenSpec) :=
  match jsMatchBraceRE original item.text with
  | none => none
  | some (idx, m0) =>
    some [TokenSpec.mark t.tFrom t.tTo item.text item.attributes,
          TokenSpec.replace ((t.tFrom : Int) + idx - 1)
            ((t.tFrom : Int) + idx + m0.length) t.tFrom t.tTo m0 idx]

def buildItems (t : SynTok) (original : String) :
    List ElementWithAttributes → Option (List TokenSpec)
  | [] => some []
  | it :: rest =>
    match buildItem t original it with
    | none => none
    | some l =>
      match buildItems t original rest with
      | none => none
      | some l' => some (l ++ l')

/-- The per-token body of the `enter` callback in `asyncViewPlugin.build`:
skip tokens without props, with an empty prop set, or classified
`hmd-codeblock`; otherwise slice the document, gate on `END_RE`, parse with
the Processor and emit mark/replace specs. -/
def buildToken (doc : String) (t : SynTok) : Option (List TokenSpec) :=
  match t.props with
  | none => some []
  | some props =>
    if props.isEmpty then some []
    else if props.contains "hmd-codeblock" then some []
    else
      let original := sliceStr doc t.tFrom t.tTo
      if !endReTestS original then some []
      else buildItems t original (parseLine original)

/-- The whole visible-range scan: concatenated specs of all tokens, `none`
when any token's processing throws. -/
def buildTokens (doc : String) : List SynTok → Option (List TokenSpec)
  | [] => some []
  | t :: ts =>
    match buildToken doc t with
    | none => none
    | some l =>
      match buildTokens doc ts with
      | none => none
      | some l' => some (l ++ l')

/-! ## `StatefulDecorationSet.compute` and its decoration cache -/

def lookupCache : List (String × Nat) → String → Option Nat
  | [], _ => none
  | (k, v) :: rest, key => if k = key then some v else lookupCache rest key

def specValue : TokenSpec → String
  | .mark _ _ v _ => v
  | .replace _ _ _ _ v _ => v

def specIsMark : TokenSpec → Bool
  | .mark _ _ _ _ => true
  | .replace _ _ _ _ _ _ => false

def specFrom : TokenSpec → Int
  | .mark f _ _ _ => f
  | .replace f _ _ _ _ _ => f

def specTo : TokenSpec → Int
  | .mark _ t _ _ => t
  | .replace _ t _ _ _ _ => t

/-- The loop of `compute`: decoration objects are modelled by allocation
numbers (`nextId` counts allocations); `decoCache` maps a token's `value`
to the decoration object created for it, and a cache hit pushes the cached
object's range instead of allocating. -/
def computeGo : List (String × Nat) → Nat → List TokenSpec →
    List (String × Nat) × Nat × List (Int × Int × Nat) × List (Int × Int × Nat)
  | cache, nid, [] => (cache, nid, [], [])
  | cache, nid, t :: ts =>
    match lookupCache cache (specValue t) with
    | none =>
      let d := nid
      let res := computeGo ((specValue t, d) :: cache) (nid + 1) ts
      if specIsMark t then
        (res.1, res.2.1, (specFrom t, specTo t, d) :: res.2.2.1, res.2.2.2)
      else
        (res.1, res.2.1, res.2.2.1, (specFrom t, specTo t, d) :: res.2.2.2)
    | some d =>
      let res := computeGo cache nid ts
      if specIsMark t then
        (res.1, res.2.1, (specFrom t, specTo t, d) :: res.2.2.1, res.2.2.2)
      else
        (res.1, res.2.1, res.2.2.1, (specFrom t, specTo t, d) :: res.2.2.2)

def insRange (x : Int × Int × Nat) : List (Int × Int × Nat) → List (Int × Int × Nat)
  | [] => [x]
  | y :: r => if x.1 ≤ y.1 then x :: y :: r else y :: insRange x r

/-- `Decoration.set(ranges, true)` sorts the ranges. -/
def sortRanges (l : List (Int × Int × Nat)) : List (Int × Int × Nat) :=
  l.foldr insRange []

/-- `StatefulDecorationSet.compute(tokens)`: threads the decoration cache
and allocation counter, returning the sorted mark and replace sets. -/
def compute (cache : List (String × Nat)) (nid : Nat) (toks : List TokenSpec) :
    List (String × Nat) × Nat × List (Int × Int × Nat) × List (Int × Int × Nat) :=
  let res := computeGo cache nid toks
  (res.1, res.2.1, sortRanges res.2.2.1, sortRanges res.2.2.2)

/-! ## `rangesInclude` and the stateful decoration field -/

/-- `rangesInclude(ranges, from, to)` from `main.ts`: inclusive comparisons
on both ends, plus strict containment. -/
def rangesInclude (ranges : List (Int × Int)) (f t : Int) : Bool :=
  ranges.any fun r =>
    (r.1 ≥ f && r.1 ≤ t) || (r.2 ≥ f && r.2 ≤ t) || (r.1 < f && r.2 > t)

/-- A committed replace decoration: its range and its `spec.loc` anchor. -/
structure RepDeco where
  dFrom : Int
  dTo : Int
  locFrom : Int
  locTo : Int
deriving DecidableEq, Repr

/-- The two state effects dispatched by `updateDecos`, plus `other` for any
unrelated effect a transaction may carry (the fold's `return deco` case). -/
inductive DecoEffect where
  | update (v : List RepDeco)
  | replace (v : List RepDeco)
  | other
deriving DecidableEq, Repr

/-- The `StateField` update of `defineStatefulDecoration`: remap the old
collection through the transaction's changes (`deco.map(tr.changes)`,
abstracted as a partial entry mapping), then fold the transaction's effects:
an `update` effect replaces the collection; a `replace` effect replaces it
by the effect's value filtered to entries whose `spec.loc` anchor does not
intersect the new selection. -/
def fieldUpdate (deco : List RepDeco) (mapChange : RepDeco → Option RepDeco)
    (effects : List DecoEffect) (sel : List (Int × Int)) : List RepDeco :=
  effects.foldl
    (fun acc e =>
      match e with
      | .update v => v
      | .replace v => v.filter fun d => !(rangesInclude sel d.locFrom d.locTo)
      | .other => acc)
    (deco.filterMap mapChange)

/-! ## Concrete trees used by the per-claim witnesses and counterexamples -/

/-- A list item with a block-trailing annotation and an inline annotation,
inside an unordered list. -/
def ulParent : Elem := ⟨1, "ul", [], [], []⟩

def liChild : Elem := ⟨2, "li", [], [], [Node.text "Item \x7b.y\x7d\n\x7b: .boxed\x7d"]⟩

/-- A `<div>` holding a `<pre>` whose content textually contains the same
annotation that also trails the div's own text. -/
def preDivC4 : Elem :=
  ⟨1, "div", [], [],
    [Node.elem 2 "pre" [] [] [Node.text "\n\x7b: .x\x7d"],
     Node.text "hello\n\x7b: .x\x7d"]⟩

/-- A `<div>` with a `<pre>` child and no block-trailing annotation of its
own. -/
def plainDivC4 : Elem :=
  ⟨1, "div", [], [],
    [Node.elem 2 "pre" [] [] [Node.text "code"], Node.text "hello"]⟩

/-! ## Shared helper lemmas -/

theorem applyAttr_fields {e e' : Elem} {k : String} {v? : Option String}
    (h : applyAttr (some e) k v? = some (some e')) :
    e'.eid = e.eid ∧ e'.tag = e.tag ∧ e'.children = e.children := by
  unfold applyAttr at h
  split at h
  · simp at h; obtain rfl := h; exact ⟨rfl, rfl, rfl⟩
  · split at h
    · rcases hv : v?.map stripQuotes with _ | s <;> rw [hv] at h
      · simp at h
      · simp [addClassesEl] at h
        obtain ⟨-, h2⟩ := h
        subst h2
        exact ⟨rfl, rfl, rfl⟩
    · rcases hv : v?.map stripQuotes with _ | s <;> rw [hv] at h
      · simp [setAttrEl] at h
        obtain ⟨-, h2⟩ := h
        subst h2
        exact ⟨rfl, rfl, rfl⟩
      · by_cases hs : s = "" <;> simp [hs, setAttrEl] at h <;>
          · obtain ⟨-, h2⟩ := h
            subst h2
            exact ⟨rfl, rfl, rfl⟩

theorem lookupCache_mono (ts : List TokenSpec) :
    ∀ (cache : List (String × Nat)) (nid : Nat) (k : String) (i : Nat),
      lookupCache cache k = some i → lookupCache (computeGo cache nid ts).1 k = some i := by
  induction ts with
  | nil => intro cache nid k i h; simpa [computeGo] using h
  | cons t ts ih =>
    intro cache nid k i h
    cases h' : lookupCache cache (specValue t) with
    | none =>
      have hne : specValue t ≠ k := by
        intro he; rw [he, h] at h'; exact Option.noConfusion h'
      have h1 : lookupCache ((specValue t, nid) :: cache) k = some i := by
        simp [lookupCache, hne, h]
      have := ih ((specValue t, nid) :: cache) (nid + 1) k i h1
      cases hm : specIsMark t <;> simp [computeGo, h', hm] <;> exact this
    | some d =>
      have := ih cache nid k i h
      cases hm : specIsMark t <;> simp [computeGo, h', hm] <;> exact this

theorem computeGo_fix (ts : List TokenSpec) :
    ∀ (cache : List (String × Nat)) (nid : Nat),
      computeGo (computeGo cache nid ts).1 (computeGo cache nid ts).2.1 ts =
        computeGo cache nid ts := by
  induction ts with
  | nil => intro cache nid; rfl
  | cons t ts ih =>
    intro cache nid
    cases h' : lookupCache cache (specValue t) with
    | none =>
      have hself : lookupCache ((specValue t, nid) :: cache) (specValue t) = some nid := by
        simp [lookupCache]
      have hmono := lookupCache_mono ts ((specValue t, nid) :: cache) (nid + 1)
        (specValue t) nid hself
      have hfix := ih ((specValue t, nid) :: cache) (nid + 1)
      cases hm : specIsMark t <;>
        simp [computeGo, h', hm, hmono, hfix]
    | some d =>
      have hmono := lookupCache_mono ts cache nid (specValue t) d h'
      have hfix := ih cache nid
      cases hm : specIsMark t <;>
        simp [computeGo, h', hm, hmono, hfix]

/-- C9: for every matched annotation substring, rebuilding with an unchanged
token list reuses the cached decoration objects: a second `compute` pass over
the same tokens starting from the cache and allocation counter left by the
first pass performs no new allocation and returns the identical decoration
sets (the cache is keyed by the token's exact matched text). -/
theorem c9_cache_stability (cache : List (String × Nat)) (nid : Nat)
    (toks : List TokenSpec) :
    compute (compute cache nid toks).1 (compute cache nid toks).2.1 toks =
      compute cache nid toks := by
  unfold compute
  rw [computeGo_fix]

/-- C6: `rangesInclude(ranges, from, to)` returns true exactly when some
selection range's start lies in `[from, to]` (inclusive on both ends), or its
end lies in `[from, to]` (inclusive), or the range strictly contains
`[from, to]`; in particular a selection endpoint exactly at a span boundary
counts as inside. -/
theorem c6_rangesInclude_iff (ranges : List (Int × Int)) (f t : Int) :
    rangesInclude ranges f t = true ↔
      ∃ r ∈ ranges,
        (f ≤ r.1 ∧ r.1 ≤ t) ∨ (f ≤ r.2 ∧ r.2 ≤ t) ∨ (r.1 < f ∧ t < r.2) := by
  unfold rangesInclude
  rw [List.any_eq_true]
  constructor
  · rintro ⟨r, hr, hb⟩
    refine ⟨r, hr, ?_⟩
    simpa [ge_iff_le, and_assoc, or_assoc] using hb
  · rintro ⟨r, hr, hb⟩
    refine ⟨r, hr, ?_⟩
    simpa [ge_iff_le, and_assoc, or_assoc] using hb

/-- C5 counterexample: a transaction that carries no rebuild effects (for
example a pure selection change dispatched before the asynchronous rebuild)
leaves the previously committed replace decorations in place even when the
new selection sits strictly inside an entry's `spec.loc` anchor, so the
committed collection does contain an entry intersecting the selection. -/
theorem c5_counterexample :
    fieldUpdate [⟨5, 8, 4, 9⟩] some [] [(6, 6)] = [⟨5, 8, 4, 9⟩] ∧
      rangesInclude [(6, 6)] 4 9 = true := by
  exact ⟨rfl, rfl⟩

/-- C5 (amended): after every transaction whose effect list ends with the
`replace` effect dispatched by a rebuild (`updateDecos` dispatches
`[update marks, replace repl]`), the committed collection contains no entry
whose `spec.loc` anchor intersects the transaction's new selection; a caret
inside a visible annotation span therefore suppresses that span's replace
decoration on the rebuild's transaction, and a later rebuild with the caret
outside restores it.  Transactions without effects keep the previous
(remapped) entries until the next rebuild. -/
theorem c5_replace_filtered (deco : List RepDeco) (mapChange : RepDeco → Option RepDeco)
    (es : List DecoEffect) (v : List RepDeco) (sel : List (Int × Int)) (d : RepDeco)
    (hd : d ∈ fieldUpdate deco mapChange (es ++ [DecoEffect.replace v]) sel) :
    rangesInclude sel d.locFrom d.locTo = false := by
  unfold fieldUpdate at hd
  rw [List.foldl_append] at hd
  simp only [List.foldl_cons, List.foldl_nil] at hd
  have := (List.mem_filter.mp hd).2
  simpa using this

theorem c5_replace_filtered_witness :
    rangesInclude [((20 : Int), (20 : Int))] 4 9 = false :=
  c5_replace_filtered [] some [DecoEffect.update []] [⟨5, 8, 4, 9⟩]
    [((20 : Int), (20 : Int))] ⟨5, 8, 4, 9⟩ (by decide)

/-- C10 counterexample: the unit `class=` is a key/value unit whose value is
empty after quote stripping, yet it is not applied as a boolean-presence
attribute: the `key === "class"` branch is checked first, so the code runs
`element.addClasses("".split(" "))` = `addClasses([""])`, which the host
rejects (empty class token) — the match aborts with the element and content
unchanged instead of setting the attribute. -/
theorem c10_counterexample :
    getAttrs "class=" = some [("class", some "")] ∧
      stripQuotes "" = "" ∧
      applyAttr (some ⟨7, "p", [], [], []⟩) "class" (some "") = none ∧
      tryToReplace (some ⟨7, "p", [], [], []⟩) "body \x7bclass=\x7d"
          (getAttrs "class=") "\x7bclass=\x7d" =
        (some ⟨7, "p", [], [], []⟩, "body \x7bclass=\x7d") :=
  ⟨rfl, rfl, rfl, rfl⟩

/-- C10 (amended): a key/value pair whose key is not `class` and whose value
is empty after quote stripping is applied exactly like a bare flag (a
boolean-presence attribute), and a pair with an empty key is skipped without
aborting the application; a `class=` unit instead aborts the match because
`addClasses` rejects the empty class token (see the counterexample). -/
theorem c10_empty_value_flag (el? : Option Elem) (k : String) (v : String)
    (v? : Option String) (hk : k ≠ "class") (hv : stripQuotes v = "") :
    applyAttr el? k (some v) = applyAttr el? k none ∧ applyAttr el? "" v? = some el? := by
  constructor
  · by_cases h0 : k = ""
    · simp [applyAttr, h0]
    · cases el? with
      | none => simp [applyAttr, h0, hk]
      | some el => simp [applyAttr, h0, hk, hv]
  · simp [applyAttr]

theorem c10_empty_value_flag_witness :
    applyAttr (some ⟨0, "p", [], [], []⟩) "data-x" (some "\x27\x27") =
        applyAttr (some ⟨0, "p", [], [], []⟩) "data-x" none ∧
      applyAttr (some ⟨0, "p", [], [], []⟩) "" (some "z") = some (some ⟨0, "p", [], [], []⟩) :=
  c10_empty_value_flag (some ⟨0, "p", [], [], []⟩) "data-x" "\x27\x27" (some "z")
    (by decide) rfl

theorem ttrGo_abort (orig content : String) (post : List (String × Option String))
    (k : String) (v : Option String) :
    ∀ (pre : List (String × Option String)) (el? el₁ : Option Elem),
      applyAttrs el? pre = some el₁ → applyAttr el₁ k v = none →
      ttrGo orig el? content (pre ++ (k, v) :: post) = (el₁, content) := by
  intro pre
  induction pre with
  | nil =>
    intro el? el₁ h1 h2
    obtain rfl : el? = el₁ := by simpa [applyAttrs] using h1
    simp [ttrGo, h2]
  | cons hd tl ih =>
    intro el? el₁ h1 h2
    obtain ⟨k₀, v₀⟩ := hd
    unfold applyAttrs at h1
    cases h0 : applyAttr el? k₀ v₀ with
    | none => rw [h0] at h1; exact absurd h1 (by simp)
    | some e' =>
      rw [h0] at h1
      simpa [ttrGo, h0] using ih e' el₁ h1 h2

/-- C2: if applying some attribute of a match fails (the host rejects the
name/value), the application of that match stops there: attributes applied
earlier in the same match remain, the matched substring is not removed from
the content, the remaining pairs are not applied, and the call returns
normally so processing continues with subsequent matches and elements. -/
theorem c2_failure_aborts (el? el₁ : Option Elem) (content orig : String)
    (pre post : List (String × Option String)) (k : String) (v : Option String)
    (h1 : applyAttrs el? pre = some el₁) (h2 : applyAttr el₁ k v = none) :
    tryToReplace el? content (some (pre ++ (k, v) :: post)) orig = (el₁, content) := by
  have habort := ttrGo_abort orig content post k v pre el? el₁ h1 h2
  cases pre with
  | nil => simpa [tryToReplace] using habort
  | cons hd tl => simpa [tryToReplace] using habort

theorem c2_failure_aborts_witness :
    tryToReplace (some ⟨0, "p", [], [], []⟩) "Hello \x7b#b\x7d"
        (some [("data-a", some "1"), ("#b", none), ("data-b", some "2")]) "\x7b#b\x7d" =
      (some ⟨0, "p", [], [("data-a", AttrVal.str "1")], []⟩, "Hello \x7b#b\x7d") :=
  c2_failure_aborts (some ⟨0, "p", [], [], []⟩)
    (some ⟨0, "p", [], [("data-a", AttrVal.str "1")], []⟩) "Hello \x7b#b\x7d" "\x7b#b\x7d"
    [("data-a", some "1")] [("data-b", some "2")] "#b" none rfl rfl

/-- C7 counterexample: a unit `a=b=c` is tokenized by `pair.split("=", 2)`,
whose second field is only the text between the first and the second `=`;
the value is `b`, not the claimed entire remainder `b=c`. -/
theorem c7_counterexample :
    getAttrs "a=b=c" = some [("a", some "b")] ∧
      (some "b" : Option String) ≠ some "b=c" :=
  ⟨rfl, by decide⟩

/-- C8 counterexample: the filter in `getAttrs` removes only fragments equal
to a straight double or single quote; a back-tick-only fragment (produced
here as the split's capture group) survives and becomes a flag token, so
quote-only fragments are not all discarded. -/
theorem c8_counterexample :
    ['\x60'] ∈ attrFragments "x \x60a b\x60" ∧
      isQuoteChar '\x60' = true ∧
      getAttrs "x \x60a b\x60" =
        some [("x", none), ("\x60", none), ("\x60a b\x60", none)] :=
  ⟨by decide, rfl, rfl⟩

/-- C8 (amended): `getAttrs` fails soft, returning none on empty input, and
every surviving fragment is nonempty and distinct from a lone straight
double or single quote; a fragment consisting of a lone back-tick is
retained (becoming a flag token) rather than discarded. -/
theorem c8_fragment_filter :
    getAttrs "" = none ∧
      ∀ (s : String) (f : List Char), f ∈ attrFragments s →
        f ≠ [] ∧ f ≠ ['"'] ∧ f ≠ ['\x27'] := by
  refine ⟨rfl, ?_⟩
  intro s f hf
  unfold attrFragments at hf
  rw [List.mem_filterMap] at hf
  obtain ⟨t?, -, ht⟩ := hf
  cases t? with
  | none => exact absurd ht (by simp)
  | some t =>
    simp only at ht
    split at ht
    · exact absurd ht (by simp)
    · rename_i hcond
      obtain rfl := Option.some.inj ht
      simp only [Bool.or_eq_true, decide_eq_true_eq, not_or] at hcond
      exact ⟨hcond.1.1, hcond.1.2, hcond.2⟩

theorem c8_fragment_filter_witness :
    (['x'] : List Char) ≠ [] ∧ (['x'] : List Char) ≠ ['"'] ∧
      (['x'] : List Char) ≠ ['\x27'] :=
  c8_fragment_filter.2 "x" ['x'] (by decide)

/-- C1 counterexample: for a value surrounded by back-tick quotes the
tokenizer does keep the unit whole (the quote-aware split), but the quote
characters are not stripped before application: `value.replace(/("|')/g,"")`
removes only straight quotes, so the attribute is set to the literal
back-quoted text rather than the inner text. -/
theorem c1_counterexample :
    getAttrs "data-x=\x60a b\x60" = some [("data-x", some "\x60a b\x60")] ∧
      (tryToReplace (some ⟨0, "p", [], [], []⟩) "c \x7bdata-x=\x60a b\x60\x7d"
          (getAttrs "data-x=\x60a b\x60") "\x7bdata-x=\x60a b\x60\x7d").1 =
        some ⟨0, "p", [], [("data-x", AttrVal.str "\x60a b\x60")], []⟩ ∧
      ("\x60a b\x60" : String) ≠ "a b" :=
  ⟨rfl, rfl, by decide⟩

theorem toListMk (l : List Char) : (String.mk l).toList = l := rfl

theorem filterFalseNil {p : Char → Bool} :
    ∀ l : List Char, (∀ c ∈ l, p c = false) → l.filter p = [] := by
  intro l h
  induction l with
  | nil => rfl
  | cons c r ih =>
    have hc := h c (by simp)
    simp only [List.filter_cons, hc, Bool.false_eq_true, if_false]
    exact ih fun d hd => h d (by simp [hd])

theorem splitGo_nospace (l : List Char) :
    ∀ (acc tail : List Char), (∀ c ∈ l, jsSpace c = false) →
      splitGo acc (l ++ tail) = splitGo (l.reverse ++ acc) tail := by
  induction l with
  | nil => intro acc tail _; simp
  | cons c l ih =>
    intro acc tail h
    have hc : jsSpace c = false := h c (by simp)
    show splitGo acc (c :: (l ++ tail)) = _
    rw [splitGo, if_neg (by simp [hc])]
    rw [ih (c :: acc) tail fun d hd => h d (by simp [hd])]
    simp

theorem quote_not_space {q : Char} (hq : isQuoteChar q = true) : jsSpace q = false := by
  unfold isQuoteChar at hq
  simp only [Bool.or_eq_true, decide_eq_true_eq] at hq
  rcases hq with (h | h) | h <;> subst h <;> decide

theorem splitGo_oneQuote (v : List Char) :
    ∀ (acc : List Char) (q : Char) (t : List Char),
      (∀ c ∈ v, isQuoteChar c = false) → isQuoteChar q = true →
      (∀ c ∈ t, isQuoteChar c = false) →
      splitGo acc (v ++ q :: t) = splitGo (v.reverse ++ acc) (q :: t) := by
  induction v with
  | nil => intro acc q t _ _ _; simp
  | cons c v ih =>
    intro acc q t hv hq ht
    have hbal : quoteBalanced (v ++ q :: t) = false := by
      unfold quoteBalanced
      have h1 : (v ++ q :: t).filter isQuoteChar = [q] := by
        rw [List.filter_append,
          filterFalseNil v fun d hd => hv d (by simp [hd])]
        simp only [List.nil_append, List.filter_cons, hq, if_true]
        rw [filterFalseNil t ht]
      rw [h1]
      rfl
    show splitGo acc (c :: (v ++ q :: t)) = _
    rw [splitGo, if_neg (by simp [hbal])]
    rw [ih (c :: acc) q t (fun d hd => hv d (by simp [hd])) hq ht]
    simp

theorem dropWhile_headNospace {l : List Char}
    (h : ∀ c, l.head? = some c → jsSpace c = false) : l.dropWhile jsSpace = l := by
  cases l with
  | nil => rfl
  | cons c r => simp [List.dropWhile_cons, h c rfl]

theorem jsTrim_eq_self {l : List Char}
    (h1 : ∀ c, l.head? = some c → jsSpace c = false)
    (h2 : ∀ c, l.getLast? = some c → jsSpace c = false) : jsTrim l = l := by
  unfold jsTrim
  rw [dropWhile_headNospace h1]
  rw [dropWhile_headNospace (by simpa [List.head?_reverse] using h2)]
  exact l.reverse_reverse

theorem takeWhileNeqAppend :
    ∀ (k r : List Char), '=' ∉ k → (k ++ '=' :: r).takeWhile (· ≠ '=') = k := by
  intro k r hk
  induction k with
  | nil => simp [List.takeWhile_cons]
  | cons c k ih =>
    have hc : c ≠ '=' := fun h => hk (by simp [h])
    have ih2 := ih fun h => hk (by simp [h])
    simp [List.takeWhile_cons, hc]
    simpa using ih2

theorem dropWhileNeqAppend :
    ∀ (k r : List Char), '=' ∉ k → (k ++ '=' :: r).dropWhile (· ≠ '=') = '=' :: r := by
  intro k r hk
  induction k with
  | nil => simp [List.dropWhile_cons]
  | cons c k ih =>
    have hc : c ≠ '=' := fun h => hk (by simp [h])
    have ih2 := ih fun h => hk (by simp [h])
    simp [List.dropWhile_cons, hc]
    simpa using ih2

theorem takeWhileNeqAll :
    ∀ l : List Char, (∀ c ∈ l, c ≠ '=') → l.takeWhile (· ≠ '=') = l := by
  intro l hl
  induction l with
  | nil => rfl
  | cons c r ih =>
    have ih2 := ih fun d hd => hl d (by simp [hd])
    simp [List.takeWhile_cons, hl c (by simp)]
    exact fun d hd => hl d (by simp [hd])

theorem memOfHead : ∀ (l : List Char) (c : Char), l.head? = some c → c ∈ l := by
  intro l c h
  cases l with
  | nil => exact absurd h (by simp)
  | cons a r => simp at h; simp [h]

theorem memOfGetLast : ∀ (l : List Char) (c : Char), l.getLast? = some c → c ∈ l := by
  intro l
  induction l with
  | nil => intro c h; exact absurd h (by simp)
  | cons a l ih =>
    intro c h
    cases l with
    | nil => simp at h; simp [h]
    | cons b r =>
      rw [List.getLast?_cons_cons] at h
      exact List.mem_cons_of_mem a (ih c h)

theorem classifyPair_keyValue (k v rest : List Char)
    (hk : k ≠ []) (hhd : k.head? ≠ some '.')
    (hkeq : '=' ∉ k) (hveq : '=' ∉ v)
    (ha : allowedKeyTest k = true)
    (hrest : rest = [] ∨ ∃ r', rest = '=' :: r') :
    classifyPair (k ++ '=' :: (v ++ rest)) = (String.mk k, some (String.mk v)) := by
  have htake2 : (v ++ rest).takeWhile (· ≠ '=') = v := by
    rcases hrest with rfl | ⟨r', rfl⟩
    · simpa using takeWhileNeqAll v fun d hd h => hveq (h ▸ hd)
    · exact takeWhileNeqAppend v r' hveq
  obtain ⟨c, k', rfl⟩ : ∃ c k', k = c :: k' := by
    cases k with
    | nil => exact absurd rfl hk
    | cons c k' => exact ⟨c, k', rfl⟩
  have hdot : ¬(c = '.') := fun h => hhd (by simp [h])
  have hcont : ('=' ∈ (c :: k') ++ '=' :: (v ++ rest)) := by simp
  have htakeK : ((c :: k') ++ '=' :: (v ++ rest)).takeWhile (· ≠ '=') = c :: k' :=
    takeWhileNeqAppend _ _ hkeq
  have hdropK : ((c :: k') ++ '=' :: (v ++ rest)).dropWhile (· ≠ '=') = '=' :: (v ++ rest) :=
    dropWhileNeqAppend _ _ hkeq
  rw [List.cons_append]
  simp only [classifyPair]
  rw [if_neg hdot]
  simp only [List.cons_append] at htakeK hdropK hcont
  rw [htakeK, hdropK]
  rw [if_pos (by simp [List.contains, ha, List.elem_eq_true_of_mem hcont])]
  have htake2n : List.takeWhile (fun x => !decide (x = '=')) (v ++ rest) = v := by
    simpa using htake2
  simp [htake2n]

/-- C7 (amended): for a unit containing `=` whose prefix before the first
`=` is an allowed key, tokenization produces a key/value pair whose key is
the text before the first `=` and whose value is the text strictly between
the first and the second `=` (to the end when no second `=` exists) — the
`split("=", 2)` limit drops everything from the second `=` on, so `a=b=c`
yields value `b`, not `b=c`. -/
theorem c7_split_limit_two (k v rest : List Char)
    (hk : k ≠ []) (hhd : k.head? ≠ some '.')
    (hkeq : '=' ∉ k) (hveq : '=' ∉ v)
    (hsp : ∀ c ∈ k ++ '=' :: (v ++ rest), jsSpace c = false)
    (ha : allowedKeyTest k = true)
    (hrest : rest = [] ∨ ∃ r', rest = '=' :: r') :
    getAttrs (String.mk (k ++ '=' :: (v ++ rest))) =
      some [(String.mk k, some (String.mk v))] := by
  have hsplit : splitGo [] (k ++ '=' :: (v ++ rest)) =
      [some (k ++ '=' :: (v ++ rest))] := by
    have h0 := splitGo_nospace (k ++ '=' :: (v ++ rest)) [] [] hsp
    simpa [splitGo] using h0
  have hne : k ++ '=' :: (v ++ rest) ≠ [] := by simp
  have hlen : 2 ≤ (k ++ '=' :: (v ++ rest)).length := by
    cases k with
    | nil => exact absurd rfl hk
    | cons a k' => simp [List.length_append]; omega
  have htrim : jsTrim (k ++ '=' :: (v ++ rest)) = k ++ '=' :: (v ++ rest) :=
    jsTrim_eq_self (fun c hc => hsp c (memOfHead _ c hc))
      (fun c hc => hsp c (memOfGetLast _ c hc))
  have hq1 : k ++ '=' :: (v ++ rest) ≠ ['"'] := by
    intro h; rw [h] at hlen; exact absurd hlen (by decide)
  have hq2 : k ++ '=' :: (v ++ rest) ≠ ['\x27'] := by
    intro h; rw [h] at hlen; exact absurd hlen (by decide)
  have hfrag : attrFragments (String.mk (k ++ '=' :: (v ++ rest))) =
      [k ++ '=' :: (v ++ rest)] := by
    unfold attrFragments
    rw [toListMk, hsplit]
    simp [htrim, hne, hq1, hq2]
  unfold getAttrs
  rw [hfrag]
  simp [hne, classifyPair_keyValue k v rest hk hhd hkeq hveq ha hrest]

theorem c7_split_limit_two_witness :
    getAttrs (String.mk (['a'] ++ '=' :: (['b'] ++ ['=', 'c']))) =
      some [(String.mk ['a'], some (String.mk ['b']))] :=
  c7_split_limit_two ['a'] ['b'] ['=', 'c'] (by decide) (by decide) (by decide)
    (by decide) (by decide) (by decide) (Or.inr ⟨['c'], rfl⟩)

theorem keyCharNotSpace {c : Char} (h : (c.isAlpha || c.isDigit || c = '-') = true) :
    jsSpace c = false := by
  by_contra hq
  rw [Bool.not_eq_false] at hq
  unfold jsSpace at hq
  simp only [Bool.or_eq_true, decide_eq_true_eq] at hq
  rcases hq with ((((h1 | h1) | h1) | h1) | h1) | h1 <;> subst h1 <;>
    exact absurd h (by decide)

theorem keyCharAllowed {c : Char} (h : (c.isAlpha || c.isDigit || c = '-') = true) :
    (!(c = '\t' || c = '\n' || c = '\x0c' || c = ' ' || c = '/' || c = '>' ||
        c = '"' || c = '\x27' || c = '=')) = true := by
  by_contra hq
  simp only [Bool.not_eq_true', Bool.not_eq_false] at hq
  simp only [Bool.or_eq_true, decide_eq_true_eq] at hq
  rcases hq with (((((((h1 | h1) | h1) | h1) | h1) | h1) | h1) | h1) | h1 <;> subst h1 <;>
    exact absurd h (by decide)

theorem keyCharNeDot {c : Char} (h : (c.isAlpha || c.isDigit || c = '-') = true) :
    c ≠ '.' := fun heq => by subst heq; exact absurd h (by decide)

theorem keyCharNeEq {c : Char} (h : (c.isAlpha || c.isDigit || c = '-') = true) :
    c ≠ '=' := fun heq => by subst heq; exact absurd h (by decide)

theorem quoteCharNe {c : Char} (h : isQuoteChar c = false) :
    ¬(c = '"') ∧ ¬(c = '\x27') ∧ ¬(c = '\x60') := by
  unfold isQuoteChar at h
  simpa [and_assoc] using h

theorem c1_tokenize (q : Char) (k v : List Char)
    (hq : q = '"' ∨ q = '\x27')
    (hk : k ≠ [])
    (hkc : ∀ c ∈ k, (c.isAlpha || c.isDigit || c = '-') = true)
    (hv : ∀ c ∈ v, isQuoteChar c = false ∧ c ≠ '=') :
    getAttrs (String.mk (k ++ '=' :: q :: (v ++ q :: ' ' :: "checked".toList))) =
      some [(String.mk k, some (String.mk (q :: (v ++ [q])))), ("checked", none)] := by
  have hq' : isQuoteChar q = true := by rcases hq with rfl | rfl <;> decide
  have hqs : jsSpace q = false := quote_not_space hq'
  have hA : ∀ c ∈ k ++ ['=', q], jsSpace c = false := by
    intro c hc
    rcases List.mem_append.mp hc with h | h
    · exact keyCharNotSpace (hkc c h)
    · simp at h
      rcases h with rfl | rfl
      · decide
      · exact hqs
  have hsplit : splitGo [] (k ++ '=' :: q :: (v ++ q :: ' ' :: "checked".toList)) =
      [some (k ++ '=' :: q :: (v ++ [q])), none, some "checked".toList] := by
    have heq : k ++ '=' :: q :: (v ++ q :: ' ' :: "checked".toList) =
        (k ++ ['=', q]) ++ (v ++ q :: ' ' :: "checked".toList) := by simp
    calc splitGo [] (k ++ '=' :: q :: (v ++ q :: ' ' :: "checked".toList))
        = splitGo [] ((k ++ ['=', q]) ++ (v ++ q :: ' ' :: "checked".toList)) := by
          rw [heq]
      _ = splitGo ((k ++ ['=', q]).reverse ++ [])
            (v ++ q :: ' ' :: "checked".toList) :=
          splitGo_nospace (k ++ ['=', q]) [] _ hA
      _ = splitGo (v.reverse ++ ((k ++ ['=', q]).reverse ++ []))
            (q :: ' ' :: "checked".toList) :=
          splitGo_oneQuote v _ q (' ' :: "checked".toList)
            (fun c hc => (hv c hc).1) hq' (by decide)
      _ = splitGo ([q].reverse ++ (v.reverse ++ ((k ++ ['=', q]).reverse ++ [])))
            (' ' :: "checked".toList) :=
          splitGo_nospace [q] _ (' ' :: "checked".toList)
            (by intro c hc; simp at hc; subst hc; exact hqs)
      _ = some ([q].reverse ++ (v.reverse ++ ((k ++ ['=', q]).reverse ++ []))).reverse ::
            lastCapture "checked".toList :: splitGo [] "checked".toList := by
          rw [splitGo, if_pos (by decide)]
      _ = [some (k ++ '=' :: q :: (v ++ [q])), none, some "checked".toList] := by
          have hrev : ([q].reverse ++ (v.reverse ++ ((k ++ ['=', q]).reverse ++ []))).reverse =
              k ++ '=' :: q :: (v ++ [q]) := by
            simp
          rw [hrev]
          rfl
  have hlast : (k ++ '=' :: q :: (v ++ [q])).getLast? = some q := by
    have : k ++ '=' :: q :: (v ++ [q]) = (k ++ '=' :: q :: v) ++ [q] := by simp
    rw [this, List.getLast?_concat]
  have hhead : ∀ c, (k ++ '=' :: q :: (v ++ [q])).head? = some c → jsSpace c = false := by
    intro c hc
    cases k with
    | nil => exact absurd rfl hk
    | cons a k' =>
      simp at hc
      subst hc
      exact keyCharNotSpace (hkc a (by simp))
  have htrim : jsTrim (k ++ '=' :: q :: (v ++ [q])) = k ++ '=' :: q :: (v ++ [q]) :=
    jsTrim_eq_self hhead (by intro c hc; rw [hlast] at hc; obtain rfl := Option.some.inj hc; exact hqs)
  have hne : k ++ '=' :: q :: (v ++ [q]) ≠ [] := by simp
  have hlen : 3 ≤ (k ++ '=' :: q :: (v ++ [q])).length := by
    cases k with
    | nil => exact absurd rfl hk
    | cons a k' => simp [List.length_append]; omega
  have hq1 : k ++ '=' :: q :: (v ++ [q]) ≠ ['"'] := by
    intro h; rw [h] at hlen; exact absurd hlen (by decide)
  have hq2 : k ++ '=' :: q :: (v ++ [q]) ≠ ['\x27'] := by
    intro h; rw [h] at hlen; exact absurd hlen (by decide)
  have hfrag : attrFragments
      (String.mk (k ++ '=' :: q :: (v ++ q :: ' ' :: "checked".toList))) =
      [k ++ '=' :: q :: (v ++ [q]), "checked".toList] := by
    unfold attrFragments
    rw [toListMk, hsplit]
    simp only [List.filterMap_cons]
    rw [htrim]
    simp only [hne, hq1, hq2]
    rfl
  have hhd : k.head? ≠ some '.' := by
    cases k with
    | nil => exact absurd rfl hk
    | cons a k' =>
      simp only [List.head?_cons, ne_eq, Option.some.injEq]
      exact fun h => keyCharNeDot (hkc a (by simp)) h
  have hkeq : '=' ∉ k := fun h => keyCharNeEq (hkc '=' h) rfl
  have hveq : '=' ∉ q :: (v ++ [q]) := by
    intro h
    simp only [List.mem_cons, List.mem_append, List.mem_singleton] at h
    rcases h with h | h | h
    · rcases hq with rfl | rfl <;> exact absurd h (by decide)
    · exact (hv '=' h).2 rfl
    · rcases hq with rfl | rfl <;> exact absurd h (by decide)
  have ha : allowedKeyTest k = true := by
    cases k with
    | nil => exact absurd rfl hk
    | cons a k' =>
      unfold allowedKeyTest
      rw [List.any_cons, keyCharAllowed (hkc a (by simp))]
      rfl
  have hclass := classifyPair_keyValue k (q :: (v ++ [q])) [] hk hhd hkeq hveq ha (Or.inl rfl)
  have hclass2 : classifyPair (k ++ '=' :: q :: (v ++ [q])) =
      (String.mk k, some (String.mk (q :: (v ++ [q])))) := by
    simpa using hclass
  unfold getAttrs
  rw [hfrag]
  simp only [List.isEmpty_cons, List.filterMap_cons, Bool.false_eq_true, if_false]
  rw [if_neg (by simp [hne])]
  rw [hclass2]
  rfl

theorem ttrGo_cons_success {orig content : String} {k : String} {v : Option String}
    {el? el' : Option Elem} (h : applyAttr el? k v = some el')
    (rest : List (String × Option String)) :
    ttrGo orig el? content ((k, v) :: rest) = ttrGo orig el' content rest := by
  simp [ttrGo, h]

/-- C1 (amended): for an attribute unit whose value is surrounded by a
matching pair of straight double or single quotes (and contains no quote
characters or `=` itself), tokenization splits only on whitespace outside
the quoted region (internal whitespace of the value is preserved and the
following flag unit is still separated), and the quote characters are
stripped from the value before it is set on the target element.  For
back-tick quotes the grouping holds but the quote characters are not
stripped (see the counterexample). -/
theorem c1_quoted_value (q : Char) (k v : List Char) (e : Elem) (content orig : String)
    (hq : q = '"' ∨ q = '\x27')
    (hk : k ≠ [])
    (hkc : ∀ c ∈ k, (c.isAlpha || c.isDigit || c = '-') = true)
    (hkcl : String.mk k ≠ "class")
    (hv : ∀ c ∈ v, isQuoteChar c = false ∧ c ≠ '=')
    (hvne : v ≠ []) :
    getAttrs (String.mk (k ++ '=' :: q :: (v ++ q :: ' ' :: "checked".toList))) =
        some [(String.mk k, some (String.mk (q :: (v ++ [q])))), ("checked", none)] ∧
      tryToReplace (some e) content
          (getAttrs (String.mk (k ++ '=' :: q :: (v ++ q :: ' ' :: "checked".toList)))) orig =
        (some { e with attrs := updateAttr (updateAttr e.attrs (String.mk k)
              (AttrVal.str (String.mk v))) "checked" AttrVal.boolTrue },
         jsReplaceFirst content orig) := by
  have htok := c1_tokenize q k v hq hk hkc hv
  refine ⟨htok, ?_⟩
  rw [htok]
  have hkne : ¬(String.mk k = "") := by
    cases k with
    | nil => exact absurd rfl hk
    | cons a k' => intro h; exact absurd (congrArg String.toList h) (by simp [toListMk])
  have hvne2 : ¬(String.mk v = "") := by
    cases v with
    | nil => exact absurd rfl hvne
    | cons a v' => intro h; exact absurd (congrArg String.toList h) (by simp [toListMk])
  have hstrip : stripQuotes (String.mk (q :: (v ++ [q]))) = String.mk v := by
    unfold stripQuotes
    rw [toListMk]
    have hqf : (!(q = '"' || q = '\x27')) = false := by
      rcases hq with rfl | rfl <;> decide
    rw [List.filter_cons, hqf]
    simp only [Bool.false_eq_true, if_false]
    rw [List.filter_append]
    have hvf : v.filter (fun c => !(c = '"' || c = '\x27')) = v := by
      rw [List.filter_eq_self]
      intro c hc
      have := quoteCharNe (hv c hc).1
      simp [this.1, this.2.1]
    rw [hvf, List.filter_cons, hqf]
    simp
  have hvalid : validAttrName (String.mk k) = true := by
    unfold validAttrName
    rw [toListMk]
    have hall : k.all (fun c => c.isAlpha || c.isDigit || c = '-' || c = '_' ||
        c = ':' || c = '.') = true := by
      rw [List.all_eq_true]
      intro c hc
      have := hkc c hc
      simp only [Bool.or_eq_true] at this ⊢
      tauto
    simp [hkne, hall]
  have happ1 : applyAttr (some e) (String.mk k) (some (String.mk (q :: (v ++ [q])))) =
      some (some { e with
        attrs := updateAttr e.attrs (String.mk k) (AttrVal.str (String.mk v)) }) := by
    unfold applyAttr
    rw [if_neg hkne, if_neg hkcl]
    simp only [Option.map_some']
    rw [hstrip]
    rw [if_neg hvne2]
    unfold setAttrEl
    rw [if_pos hvalid]
    rfl
  have happ2 : applyAttr (some { e with
      attrs := updateAttr e.attrs (String.mk k) (AttrVal.str (String.mk v)) })
      "checked" none = some (some { e with
      attrs := updateAttr (updateAttr e.attrs (String.mk k) (AttrVal.str (String.mk v)))
        "checked" AttrVal.boolTrue }) := rfl
  show ttrGo orig (some e) content
      [(String.mk k, some (String.mk (q :: (v ++ [q])))), ("checked", none)] = _
  rw [ttrGo_cons_success happ1, ttrGo_cons_success happ2]
  rfl

theorem c1_quoted_value_witness :
    getAttrs "data-x=\"a b\" checked" =
        some [("data-x", some "\"a b\""), ("checked", none)] ∧
      tryToReplace (some ⟨0, "p", [], [], []⟩) "c" (getAttrs "data-x=\"a b\" checked") "o" =
        (some ⟨0, "p", [],
            [("data-x", AttrVal.str "a b"), ("checked", AttrVal.boolTrue)], []⟩, "c") :=
  c1_quoted_value '"' "data-x".toList ['a', ' ', 'b'] ⟨0, "p", [], [], []⟩ "c" "o"
    (Or.inl rfl) (by decide) (by decide) (by decide) (by decide) (by decide)

/-- C3: when an element's directly-owned text matches the block-trailer
grammar and the element is a list item, or its parent is a blockquote, or it
carries the callout class, the emitted annotation record targets the parent
element (not the element itself); and when the element is a list item the
whole parse procedure is re-run on the element rebuilt from the
block-stripped content, so every record found by that re-run (in particular
remaining inline annotations) appears in the output. -/
theorem c3_block_retarget (f : Nat) (p el0 : Elem) (original inner : String)
    (hb : blockMatchS (getTopLevelText el0) = some (original, inner))
    (hcond : el0.tag = "li" ∨ parentQuote (some p) = true ∨
      hasClassE el0 "callout" = true) :
    (recurseAndParseElements (f + 1) (some p) el0).1.head? =
        some ⟨some p.eid, getAttrs inner, inner⟩ ∧
      (el0.tag = "li" →
        ∀ r ∈ (recurseAndParseElements f
            (tryToReplace (some p) (renderNodesF (f + 1) el0.children)
              (getAttrs inner) original).1
            { el0 with children := (parseHTML (tryToReplace (some p) (renderNodesF (f + 1) el0.children) (getAttrs inner) original).2) }).1,
          r ∈ (recurseAndParseElements (f + 1) (some p) el0).1) := by
  have hretarget : (decide (el0.tag = "li") || parentQuote (some p) ||
      hasClassE el0 "callout") = true := by
    rcases hcond with h | h | h <;> simp [h]
  constructor
  · simp only [recurseAndParseElements]
    rw [hb]
    simp only [hretarget, if_true, Option.map_some', List.head?_cons]
  · intro hli r hr
    simp only [recurseAndParseElements]
    rw [hb]
    simp only [hretarget, if_true, Option.map_some']
    rw [if_pos hli]
    exact List.mem_cons_of_mem _ (List.mem_append_left _ hr)

theorem c3_block_retarget_witness :
    (recurseAndParseElements 5 (some ulParent) liChild).1.head? =
        some ⟨some 1, getAttrs ".boxed", ".boxed"⟩ ∧
      (⟨some 2, some [("class", some "y")], ".y"⟩ : ElementWithAttributes) ∈
        (recurseAndParseElements 5 (some ulParent) liChild).1 :=
  ⟨(c3_block_retarget 4 ulParent liChild "\n\x7b: .boxed\x7d" ".boxed" rfl (Or.inl rfl)).1,
   (c3_block_retarget 4 ulParent liChild "\n\x7b: .boxed\x7d" ".boxed" rfl (Or.inl rfl)).2 rfl
     ⟨some 2, some [("class", some "y")], ".y"⟩ (by decide)⟩

/-- C4 counterexample: the walker never recurses into the `<pre>` child, but
the block branch rewrites the whole `innerHTML` with the first occurrence of
the matched substring removed — and that first occurrence lies inside the
`<pre>` child's serialized content, so the code block's textual content is
mutated (emptied) while the annotation after it stays visible. -/
theorem c4_counterexample :
    (elemChildrenOf preDivC4.children).map (fun e => (e.tag, getTopLevelText e)) =
        [("pre", "\n\x7b: .x\x7d")] ∧
      (elemChildrenOf (recurseAndParseElements 5 none preDivC4).2.1.children).map
          (fun e => (e.tag, getTopLevelText e)) = [("pre", "")] :=
  ⟨rfl, rfl⟩

/-- Core identity of a mutated element: `tryToReplace` only touches the
attribute list and class set of its target, so identity, tag and children
survive; `none` targets stay `none`. -/
def coreKeep : Option Elem → Option Elem → Prop
  | none, none => True
  | some a, some b => b.eid = a.eid ∧ b.tag = a.tag ∧ b.children = a.children
  | _, _ => False

theorem coreKeep_refl : ∀ el? : Option Elem, coreKeep el? el?
  | none => trivial
  | some _ => ⟨rfl, rfl, rfl⟩

theorem coreKeep_trans : ∀ {a b c : Option Elem}, coreKeep a b → coreKeep b c → coreKeep a c
  | none, none, none, _, _ => trivial
  | some _, some _, some _, ⟨h1, h2, h3⟩, ⟨g1, g2, g3⟩ =>
    ⟨g1.trans h1, g2.trans h2, g3.trans h3⟩
  | none, some _, _, h, _ => absurd h (by simp [coreKeep])
  | some _, none, _, h, _ => absurd h (by simp [coreKeep])
  | none, none, some _, _, g => absurd g (by simp [coreKeep])
  | some _, some _, none, _, g => absurd g (by simp [coreKeep])

theorem applyAttr_not_some_none (e : Elem) (k : String) (v : Option String) :
    applyAttr (some e) k v ≠ some none := by
  unfold applyAttr
  dsimp only
  split
  · simp
  · split
    · rcases hv : Option.map stripQuotes v with _ | s <;> dsimp only
      · simp
      · cases hA : addClassesEl e (jsSplitSpace s) <;> simp [hA]
    · rcases hv : Option.map stripQuotes v with _ | s <;> dsimp only
      · cases hA : setAttrEl e k AttrVal.boolTrue <;> simp [hA]
      · by_cases hs : s = ""
        · rw [if_pos hs]
          cases hA : setAttrEl e k AttrVal.boolTrue <;> simp [hA]
        · rw [if_neg hs]
          cases hA : setAttrEl e k (AttrVal.str s) <;> simp [hA]

theorem applyAttr_coreKeep {el? r : Option Elem} {k : String} {v : Option String}
    (h : applyAttr el? k v = some r) : coreKeep el? r := by
  cases el? with
  | none =>
    unfold applyAttr at h
    split at h
    · obtain rfl := Option.some.inj h
      trivial
    · split at h
      · rcases v with _ | s <;> simp at h
      · simp at h
  | some e =>
    cases r with
    | none => exact absurd h (applyAttr_not_some_none e k v)
    | some e' => exact applyAttr_fields h

theorem ttrGo_coreKeep (attrs : List (String × Option String)) :
    ∀ (orig content : String) (el? : Option Elem),
      coreKeep el? (ttrGo orig el? content attrs).1 := by
  induction attrs with
  | nil => intro orig content el?; exact coreKeep_refl el?
  | cons hd tl ih =>
    intro orig content el?
    obtain ⟨k, v⟩ := hd
    cases hA : applyAttr el? k v with
    | none => simpa [ttrGo, hA] using coreKeep_refl el?
    | some el' =>
      have h2 := ih orig content el'
      simpa [ttrGo, hA] using coreKeep_trans (applyAttr_coreKeep hA) h2

theorem tryToReplace_coreKeep (el? : Option Elem) (content : String)
    (attrs? : Option (List (String × Option String))) (orig : String) :
    coreKeep el? (tryToReplace el? content attrs? orig).1 := by
  rcases attrs? with _ | attrs
  · exact coreKeep_refl el?
  · cases attrs with
    | nil => exact coreKeep_refl el?
    | cons a l => exact ttrGo_coreKeep (a :: l) orig content el?

theorem recurse_parentCore : ∀ (f : Nat) (p : Option Elem) (el : Elem),
    coreKeep p (recurseAndParseElements f p el).2.2 := by
  intro f
  induction f with
  | zero => intro p el; exact coreKeep_refl p
  | succ f ih =>
    intro p el
    simp only [recurseAndParseElements]
    cases hb : blockMatchS (getTopLevelText el) with
    | some pr =>
      obtain ⟨original, inner⟩ := pr
      dsimp only
      split
      · refine coreKeep_trans ?_ (ih _ _)
        split
        · exact tryToReplace_coreKeep _ _ _ _
        · exact coreKeep_refl p
      · split
        · exact tryToReplace_coreKeep _ _ _ _
        · exact coreKeep_refl p
    | none =>
      cases hbase : baseMatchS (getTopLevelText el) with
      | some pr =>
        obtain ⟨original, inner⟩ := pr
        dsimp only
        split
        · exact coreKeep_refl p
        · exact coreKeep_refl p
        · rename_i heq
          rw [heq]
          exact tryToReplace_coreKeep _ _ _ _
      | none =>
        dsimp only
        exact coreKeep_refl p

theorem elemChildrenOf_setElemChildAt :
    ∀ (l : List Node) (j : Nat) (c' : Elem),
      elemChildrenOf (setElemChildAt l j c'.toNode) = (elemChildrenOf l).set j c' := by
  intro l
  induction l with
  | nil => intro j c'; simp [setElemChildAt, elemChildrenOf]
  | cons n rest ih =>
    intro j c'
    cases n with
    | text d =>
      simp [setElemChildAt, elemChildrenOf, Node.toElem?, List.filterMap_cons] at ih ⊢
      exact ih j c'
    | elem a b c dd e =>
      cases j with
      | zero =>
        simp [setElemChildAt, elemChildrenOf, Node.toElem?, Elem.toNode,
          List.filterMap_cons]
      | succ j =>
        simp [setElemChildAt, elemChildrenOf, Node.toElem?, List.filterMap_cons]
        simpa [elemChildrenOf] using ih j c'

theorem elemChildrenOf_setTextAt :
    ∀ (l : List Node) (t : Nat) (s : String) (d : String),
      l.get? t = some (Node.text d) →
      elemChildrenOf (setTextAt l t s) = elemChildrenOf l := by
  intro l
  induction l with
  | nil => intro t s d h; simp [setTextAt]
  | cons n rest ih =>
    intro t s d h
    cases t with
    | zero =>
      simp at h
      subst h
      simp [setTextAt, elemChildrenOf, Node.toElem?, List.filterMap_cons]
    | succ t =>
      cases n with
      | text d0 =>
        simp [setTextAt, elemChildrenOf, Node.toElem?, List.filterMap_cons]
        simpa [elemChildrenOf] using ih t s d (by simpa using h)
      | elem a b c dd e =>
        simp [setTextAt, elemChildrenOf, Node.toElem?, List.filterMap_cons]
        simpa [elemChildrenOf] using ih t s d (by simpa using h)

theorem firstTextIdx_text :
    ∀ (l : List Node) (t : Nat), firstTextIdx l = some t →
      ∃ d, l.get? t = some (Node.text d) := by
  intro l
  induction l with
  | nil => intro t h; exact absurd h (by simp [firstTextIdx])
  | cons n rest ih =>
    intro t h
    cases n with
    | text d =>
      simp [firstTextIdx] at h
      subst h
      exact ⟨d, rfl⟩
    | elem a b c dd e =>
      simp [firstTextIdx] at h
      obtain ⟨t', ht', rfl⟩ := h
      obtain ⟨d, hd⟩ := ih t' ht'
      exact ⟨d, by simpa using hd⟩

theorem childLoop_corePres
    (go : Option Elem → Elem → List ElementWithAttributes × Elem × Option Elem)
    (hgo : ∀ (e c : Elem), coreKeep (some e) (go (some e) c).2.2) :
    ∀ (k i0 : Nat) (el : Elem) (i : Nat) (c : Elem),
      (elemChildrenOf el.children).get? i = some c →
      (c.tag = "pre" ∨ c.tag = "code") →
      ∃ c', (elemChildrenOf (childLoop go k i0 el).2.children).get? i = some c' ∧
        c'.eid = c.eid ∧ c'.tag = c.tag ∧ c'.children = c.children := by
  intro k
  induction k with
  | zero =>
    intro i0 el i c h hc
    exact ⟨c, h, rfl, rfl, rfl⟩
  | succ k ih =>
    intro i0 el i c h hc
    cases h0 : (elemChildrenOf el.children).get? i0 with
    | none =>
      simp only [childLoop, h0]
      exact ⟨c, h, rfl, rfl, rfl⟩
    | some c0 =>
      by_cases hskip : (c0.tag = "pre" || c0.tag = "code") = true
      · simp only [childLoop, h0, hskip, if_true]
        exact ih (i0 + 1) el i c h hc
      · have hne : i ≠ i0 := by
          intro heq
          subst heq
          rw [h0] at h
          obtain rfl := Option.some.inj h
          rcases hc with hct | hct <;> simp [hct] at hskip
        simp only [childLoop, h0, hskip, if_false]
        have hcore := hgo el c0
        cases hr : (go (some el) c0).2.2 with
        | none =>
          rw [hr] at hcore
          exact absurd hcore (by simp [coreKeep])
        | some x =>
          rw [hr] at hcore
          obtain ⟨-, -, hch⟩ := hcore
          refine ih (i0 + 1) _ i c ?_ hc
          rw [elemChildrenOf_setElemChildAt]
          simp only [Option.getD_some]
          rw [hch, List.get?_set_ne _ _ (Ne.symm hne)]
          exact h

theorem setElemChildAt_get_text :
    ∀ (l : List Node) (j : Nat) (n : Node) (t : Nat) (d : String),
      l.get? t = some (Node.text d) → (setElemChildAt l j n).get? t = some (Node.text d) := by
  intro l
  induction l with
  | nil => intro j n t d h; exact absurd h (by simp)
  | cons nd rest ih =>
    intro j n t d h
    cases nd with
    | text d0 =>
      cases t with
      | zero => simpa [setElemChildAt] using h
      | succ t => simpa [setElemChildAt] using ih j n t d (by simpa using h)
    | elem a b c dd e =>
      cases j with
      | zero =>
        cases t with
        | zero => exact absurd h (by simp)
        | succ t => simpa [setElemChildAt] using (by simpa using h : rest.get? t = some (Node.text d))
      | succ j =>
        cases t with
        | zero => exact absurd h (by simp)
        | succ t => simpa [setElemChildAt] using ih j n t d (by simpa using h)

theorem firstTextIdx_none_text :
    ∀ l : List Node, firstTextIdx l = none →
      (l.filterMap fun n => match n with | .text d => some d | _ => none) = [] := by
  intro l
  induction l with
  | nil => intro _; rfl
  | cons nd rest ih =>
    intro h
    cases nd with
    | text d => exact absurd h (by simp [firstTextIdx])
    | elem a b c dd e =>
      simp [firstTextIdx] at h
      simpa [List.filterMap_cons] using ih h

/-- C4 (amended): preformatted/code elements are never scanned: the walker's
children loop skips `<pre>`/`<code>` children without recursing into them,
and the decoration builder emits nothing for tokens classified
`hmd-codeblock`; moreover, when the element's own text does not trigger the
block-annotation rewrite of its serialized children, a `<pre>`/`<code>`
child's identity, tag and children (hence its entire textual content) are
unchanged by the walk.  (When an enclosing element's block annotation is
stripped, the wholesale `innerHTML` rewrite can still mutate a code block —
see the counterexample.) -/
theorem c4_code_blocks_skipped :
    (∀ (go : Option Elem → Elem → List ElementWithAttributes × Elem × Option Elem)
        (k i : Nat) (el : Elem) (c : Elem),
        (elemChildrenOf el.children).get? i = some c →
        (c.tag = "pre" ∨ c.tag = "code") →
        childLoop go (k + 1) i el = childLoop go k (i + 1) el) ∧
      (∀ (doc : String) (t : SynTok) (props : List String),
        t.props = some props → props.contains "hmd-codeblock" = true →
        buildToken doc t = some []) ∧
      (∀ (f : Nat) (p : Option Elem) (el : Elem) (i : Nat) (c : Elem),
        blockMatchS (getTopLevelText el) = none →
        (elemChildrenOf el.children).get? i = some c →
        (c.tag = "pre" ∨ c.tag = "code") →
        ∃ c', (elemChildrenOf (recurseAndParseElements f p el).2.1.children).get? i =
            some c' ∧
          c'.eid = c.eid ∧ c'.tag = c.tag ∧ c'.children = c.children) := by
  refine ⟨?_, ?_, ?_⟩
  · intro go k i el c h hc
    have h2 : (elemChildrenOf el.children)[i]? = some c := by simpa using h
    rcases hc with h' | h' <;> simp [childLoop, h2, h']
  · intro doc t props hp hcb
    unfold buildToken
    rw [hp]
    dsimp only
    by_cases he : props.isEmpty = true
    · rw [if_pos he]
    · rw [if_neg he, if_pos hcb]
  · intro f p el i c hnb h hc
    cases f with
    | zero => exact ⟨c, h, rfl, rfl, rfl⟩
    | succ f =>
      have hgo : ∀ (e c : Elem),
          coreKeep (some e) (recurseAndParseElements f (some e) c).2.2 :=
        fun e c => recurse_parentCore f (some e) c
      simp only [recurseAndParseElements]
      rw [hnb]
      cases hbase : baseMatchS (getTopLevelText el) with
      | none =>
        dsimp only
        exact childLoop_corePres _ hgo _ 0 el i c h hc
      | some pr =>
        obtain ⟨original, inner⟩ := pr
        dsimp only
        obtain ⟨t, hft⟩ : ∃ t, firstTextIdx el.children = some t := by
          cases hft : firstTextIdx el.children with
          | some t => exact ⟨t, rfl⟩
          | none =>
            exfalso
            have hempty : getTopLevelText el = "" := by
              unfold getTopLevelText
              rw [firstTextIdx_none_text el.children hft]
              rfl
            rw [hempty, show baseMatchS "" = none from rfl] at hbase
            exact Option.noConfusion hbase
        obtain ⟨d, hd⟩ := firstTextIdx_text el.children t hft
        rw [hft]
        dsimp only [Option.getD_some]
        split
        · -- sibling resolved to the element itself
          rename_i heq
          rw [heq]
          dsimp only [resolveRef]
          have hcore := tryToReplace_coreKeep (some el)
            (textDataAt el.children t) (getAttrs inner) original
          cases hr : (tryToReplace (some el) (textDataAt el.children t)
              (getAttrs inner) original).1 with
          | none => rw [hr] at hcore; exact absurd hcore (by simp [coreKeep])
          | some x =>
            rw [hr] at hcore
            obtain ⟨-, -, hch⟩ := hcore
            refine childLoop_corePres _ hgo _ 0 _ i c ?_ hc
            dsimp only [Option.getD_some]
            rw [elemChildrenOf_setTextAt _ t _ d (by rw [hch]; exact hd)]
            rw [hch]
            exact h
        · -- sibling resolved to an element child
          rename_i j heq
          rw [heq]
          dsimp only [resolveRef]
          cases hj : (elemChildrenOf el.children).get? j with
          | none =>
            have hcore := tryToReplace_coreKeep none
              (textDataAt el.children t) (getAttrs inner) original
            cases hr : (tryToReplace none (textDataAt el.children t)
                (getAttrs inner) original).1 with
            | some x => rw [hr] at hcore; exact absurd hcore (by simp [coreKeep])
            | none =>
              refine childLoop_corePres _ hgo _ 0 _ i c ?_ hc
              dsimp only
              rw [elemChildrenOf_setTextAt _ t _ d hd]
              exact h
          | some cj =>
            have hcore := tryToReplace_coreKeep (some cj)
              (textDataAt el.children t) (getAttrs inner) original
            cases hr : (tryToReplace (some cj) (textDataAt el.children t)
                (getAttrs inner) original).1 with
            | none => rw [hr] at hcore; exact absurd hcore (by simp [coreKeep])
            | some c' =>
              rw [hr] at hcore
              obtain ⟨he1, he2, he3⟩ := hcore
              dsimp only
              by_cases hij : i = j
              · subst hij
                obtain rfl : cj = c := Option.some.inj (hj.symm.trans h)
                obtain ⟨hlt, -⟩ := List.get?_eq_some.mp hj
                have hgi : (elemChildrenOf ({ el with children := setTextAt (setElemChildAt el.children i c'.toNode) t (tryToReplace (some cj) (textDataAt el.children t) (getAttrs inner) original).2 } : Elem).children).get? i = some c' := by
                  dsimp only
                  rw [elemChildrenOf_setTextAt _ t _ d
                    (setElemChildAt_get_text el.children i c'.toNode t d hd)]
                  rw [elemChildrenOf_setElemChildAt]
                  exact List.get?_set_eq_of_lt _ hlt
                obtain ⟨c'', hg2, f1, f2, f3⟩ := childLoop_corePres _ hgo _ 0 _ i c' hgi
                  (by rw [he2]; exact hc)
                exact ⟨c'', hg2, f1.trans he1, f2.trans he2, f3.trans he3⟩
              · refine childLoop_corePres _ hgo _ 0 _ i c ?_ hc
                rw [elemChildrenOf_setTextAt _ t _ d
                  (setElemChildAt_get_text el.children j c'.toNode t d hd)]
                rw [elemChildrenOf_setElemChildAt]
                rw [List.get?_set_ne _ _ (Ne.symm hij)]
                exact h
        · -- sibling resolved to the parent
          rename_i heq
          rw [heq]
          refine childLoop_corePres _ hgo _ 0 _ i c ?_ hc
          dsimp only
          rw [elemChildrenOf_setTextAt _ t _ d hd]
          exact h

theorem c4_code_blocks_skipped_witness :
    childLoop (recurseAndParseElements 3) 1 0 plainDivC4 =
        childLoop (recurseAndParseElements 3) 0 1 plainDivC4 ∧
      buildToken "x" ⟨0, 1, some ["hmd-codeblock"]⟩ = some [] ∧
      ∃ c', (elemChildrenOf
            (recurseAndParseElements 3 none plainDivC4).2.1.children).get? 0 = some c' ∧
        c'.eid = 2 ∧ c'.tag = "pre" ∧ c'.children = [Node.text "code"] :=
  ⟨c4_code_blocks_skipped.1 (recurseAndParseElements 3) 0 0 plainDivC4
      ⟨2, "pre", [], [], [Node.text "code"]⟩ rfl (Or.inl rfl),
   c4_code_blocks_skipped.2.1 "x" ⟨0, 1, some ["hmd-codeblock"]⟩ ["hmd-codeblock"]
      rfl (by decide),
   c4_code_blocks_skipped.2.2 3 none plainDivC4 0
      ⟨2, "pre", [], [], [Node.text "code"]⟩ rfl rfl (Or.inl rfl)⟩
